import Mathlib

/-!
Verification of the secfeed pipeline core: the incremental feed fetcher
with per-source watermark tracking, the article enricher, and the
classification engine (LLM thresholding, embedding cosine similarity,
text chunking and chunk-embedding averaging).

Shallow embedding conventions:
- Go strings are Lean String values; rune slices are List Char.
- Go time.Time values are modelled as integers (Unix-style instants);
  the only operation used is the strict order Published.After.
- Go float32 arithmetic is modelled with exact real numbers.
- External effects (HTTP fetch, readability extraction, the RSS date
  parser applied to the raw Published string) are modelled as explicit
  inputs describing the outcome of the call.
-/

namespace Secfeed

/-! ## Data model (pkg/types, final generation) -/

/-- Article record (types.Article); Published is an integer instant. -/
structure Article where
  title : String
  description : String
  link : String
  content : String
  categories : List String
  published : Int
  deriving DecidableEq, Repr, Inhabited

/-- CategoryRelevance record (types.CategoryRelevance, final generation:
Relevance is float32, modelled as a real number). -/
structure CategoryRelevance where
  category : String
  relevance : Real
  explanation : String

/-! ## Feed fetcher (pkg/feed collectFeed, watermark generation) -/

/-- One parsed feed entry (gofeed.Item as consumed by collectFeed).
publishedParsed models item.PublishedParsed; publishedFallback models
the result of time.Parse with the CrowdStrike layout applied to the raw
item.Published string (some t on success, none on parse failure). -/
structure FeedItem where
  title : String
  description : String
  link : String
  content : String
  categories : List String
  publishedParsed : Option Int
  publishedFallback : Option Int
  deriving DecidableEq, Repr

/-- Outcome of the external fetch plus readability extraction performed
inside enrichArticleItem for one article link. -/
inductive FetchOutcome where
  /-- fetchURL returned an error (enrichArticleItem returns a, nil). -/
  | fetchFailed : FetchOutcome
  /-- url.ParseRequestURI returned an error. -/
  | urlParseFailed : FetchOutcome
  /-- readability.FromReader returned an error. -/
  | extractFailed : FetchOutcome
  /-- Extraction succeeded: content is the html Content field,
  textContent the TextContent field of the readability result. -/
  | extracted (content : String) (textContent : String) : FetchOutcome
  deriving DecidableEq, Repr

/-- Timestamp normalization for one entry: PublishedParsed when present,
otherwise the fallback-format parse of the raw Published string. -/
def derivePublished (it : FeedItem) : Option Int :=
  match it.publishedParsed with
  | some t => some t
  | none => it.publishedFallback

/-- The article built from a feed entry once its timestamp t is known. -/
def toArticle (it : FeedItem) (t : Int) : Article :=
  { title := it.title
    description := it.description
    link := it.link
    content := it.content
    categories := it.categories
    published := t }

/-- enrichArticleItem, heuristic cleanup phase only (the two statements
before the fetch): copy Content into an empty Description, then drop a
Description longer than 1000 characters. -/
def enrichCleanup (a : Article) : Article :=
  let a1 := if a.description = "" && a.content != "" then
    { a with description := a.content } else a
  if a1.description.length > 1000 then { a1 with description := "" } else a1

/-- enrichArticleItem (pkg/feed): cleanup, then unconditional re-fetch of
the article link. The boolean is true exactly when the Go function
returns a non-nil error. A failed fetchURL returns the article with nil
error; a url-parse or extraction failure returns it with an error; an
extraction with empty html content is an error; otherwise Content is
replaced by the extracted text content. -/
def enrichArticleItem (a : Article) (fo : FetchOutcome) : Article × Bool :=
  let a := enrichCleanup a
  match fo with
  | .fetchFailed => (a, false)
  | .urlParseFailed => (a, true)
  | .extractFailed => (a, true)
  | .extracted c tc =>
      if c.length = 0 then (a, true) else ({ a with content := tc }, false)

/-- The per-entry body of the collectFeed loop: entries without a
derivable timestamp are skipped (continue); entries at or before the
watermark wm are skipped; kept entries are enriched (the error being
logged only) and appended. env gives the fetch outcome for each article. -/
def keptArticles (env : Article → FetchOutcome) (wm : Int)
    (items : List FeedItem) : List Article :=
  items.filterMap fun it =>
    match derivePublished it with
    | none => none
    | some t =>
        if wm < t then
          some (enrichArticleItem (toArticle it t) (env (toArticle it t))).1
        else none

/-- collectFeed for one source and one poll: the kept articles plus the
new watermark, which is set to the Published field of articles[0] when
at least one entry was kept and left unchanged otherwise. -/
def collectFeed (env : Article → FetchOutcome) (wm : Int)
    (items : List FeedItem) : List Article × Int :=
  let articles := keptArticles env wm items
  match articles with
  | [] => (articles, wm)
  | a :: _ => (articles, a.published)

/-- Watermark after a sequence of polls of one source, starting from wm;
each poll supplies the feed document parsed in that cycle. -/
def pollWatermark (env : Article → FetchOutcome) (wm : Int)
    (polls : List (List FeedItem)) : Int :=
  polls.foldl (fun w its => (collectFeed env w its).2) wm

/-! ## Classification engine (pkg/classification, final generation) -/

/-- The single loop of cosineSimilarity: dot accumulates a[i]*b[i],
normA accumulates a[i]*a[i], normB accumulates b[i]*b[i]. For equal
indices this is the zipWith product sum, used for all three sums. -/
def dotList (a b : List Real) : Real :=
  (List.zipWith (fun x y => x * y) a b).sum

/-- cosineSimilarity (pkg/classification): the sentinel -1 on a length
mismatch, otherwise the dot product over the product of the two L2
norms (math.Sqrt modelled as the real square root). -/
noncomputable def cosineSimilarity (a b : List Real) : Real :=
  if a.length ≠ b.length then -1
  else dotList a b / (Real.sqrt (dotList a a) * Real.sqrt (dotList b b))

/-- classifyWithLLM, after the provider call: the parsed relevance list
is filtered by match.Relevance >= c.threshold. -/
noncomputable def classifyWithLLM (catMatching : List CategoryRelevance)
    (threshold : Real) : List CategoryRelevance :=
  catMatching.filter fun m => threshold ≤ m.relevance

/-- classifyWithEmbeddings, after the article embedding call: for every
cached category vector, the relevance is sim * 10 and the category is
kept when relevance >= c.threshold, with an empty Explanation. The Go
map of encoded categories is modelled as an association list. -/
noncomputable def classifyWithEmbeddings
    (encCategories : List (String × List Real)) (articleEmbVecs : List Real)
    (threshold : Real) : List CategoryRelevance :=
  encCategories.filterMap fun nv =>
    let sim := cosineSimilarity articleEmbVecs nv.2
    let relevance := sim * 10
    if threshold ≤ relevance then
      some { category := nv.1, relevance := relevance, explanation := "" }
    else none

/-! ## LLM client chunking (pkg/llm chunkText / averageEmbeddings) -/

/-- Deployed constant embeddingsChunkSize (pkg/llm). -/
def embeddingsChunkSize : Nat := 1000

/-- Deployed constant embeddingsOverlap (pkg/llm). -/
def embeddingsOverlap : Nat := 200

/-- The chunkText loop, fuel-indexed. start is the Go int loop variable;
each iteration with start < len(runes) slices runes[start:end] with
end = min(start+chunkSize, len(runes)) and advances start by
chunkSize - overlap. none models running out of fuel, i.e. the result is
undetermined within the given iteration budget. -/
def chunkTextAux (runes : List Char) (chunkSize overlap : Nat) :
    Nat → Int → Option (List (List Char))
  | 0, _ => none
  | fuel + 1, start =>
      if start < (runes.length : Int) then
        let e := min (start + (chunkSize : Int)) (runes.length : Int)
        match chunkTextAux runes chunkSize overlap fuel
            (start + ((chunkSize : Int) - (overlap : Int))) with
        | none => none
        | some rest =>
            some (((runes.drop start.toNat).take (e - start).toNat) :: rest)
      else some []

/-- chunkText (pkg/llm) on a rune list, with an iteration budget large
enough for every terminating run (the loop advances start by at least
one per iteration whenever overlap < chunkSize). -/
def chunkText (text : List Char) (chunkSize overlap : Nat) :
    Option (List (List Char)) :=
  chunkTextAux text chunkSize overlap (text.length + 1) 0

/-- averageEmbeddings (pkg/llm): errors on an empty input or on any
dimension mismatch with the first embedding; otherwise sums the vectors
elementwise and divides every coordinate by the number of embeddings. -/
noncomputable def averageEmbeddings (embeddings : List (List Real)) :
    Option (List Real) :=
  match embeddings with
  | [] => none
  | e0 :: rest =>
      let dim := e0.length
      if (e0 :: rest).all (fun e => e.length = dim) then
        let total := (e0 :: rest).foldl
          (fun acc e => List.zipWith (fun x y => x + y) acc e)
          (List.replicate dim 0)
        some (total.map fun x => x / ((e0 :: rest).length : Real))
      else none

/-! ## Concrete environments and items used in closed statements -/

/-- Fetch environment in which every article fetch fails (network down);
enrichArticleItem then returns the cleaned article with nil error. -/
def envNone : Article → FetchOutcome := fun _ => FetchOutcome.fetchFailed

/-- A minimal feed entry with a parsed timestamp. -/
def simpleItem (link : String) (t : Int) : FeedItem :=
  { title := link, description := "", link := link, content := "",
    categories := [], publishedParsed := some t, publishedFallback := none }

/-! ## Feed fetcher lemmas -/

lemma toArticle_published (it : FeedItem) (t : Int) :
    (toArticle it t).published = t := rfl

lemma enrichCleanup_published (a : Article) :
    (enrichCleanup a).published = a.published := by
  unfold enrichCleanup
  dsimp only
  split <;> split <;> rfl

lemma enrichArticleItem_published (a : Article) (fo : FetchOutcome) :
    (enrichArticleItem a fo).1.published = a.published := by
  cases fo <;> simp only [enrichArticleItem] <;>
    first
      | exact enrichCleanup_published a
      | (split <;> simp only [enrichCleanup_published])

lemma keptArticles_map_published (env : Article → FetchOutcome) (wm : Int) :
    ∀ items : List FeedItem,
      (keptArticles env wm items).map Article.published =
        (items.filterMap derivePublished).filter (fun t => decide (wm < t))
  | [] => rfl
  | it :: rest => by
      have ih := keptArticles_map_published env wm rest
      simp only [keptArticles, List.filterMap_cons] at ih ⊢
      cases hd : derivePublished it with
      | none => simpa using ih
      | some t =>
          by_cases hw : wm < t
          · simp [hw, enrichArticleItem_published, toArticle_published, ih]
          · simp [hw, ih]

lemma mem_keptArticles {env : Article → FetchOutcome} {wm : Int}
    {items : List FeedItem} {a : Article} :
    a ∈ keptArticles env wm items ↔
      ∃ it ∈ items, ∃ t, derivePublished it = some t ∧ wm < t ∧
        a = (enrichArticleItem (toArticle it t) (env (toArticle it t))).1 := by
  simp only [keptArticles, List.mem_filterMap]
  constructor
  · rintro ⟨it, hit, h⟩
    cases hd : derivePublished it with
    | none => simp [hd] at h
    | some t =>
        rw [hd] at h
        by_cases hw : wm < t
        · simp only [hw, if_true, Option.some.injEq] at h
          exact ⟨it, hit, t, hd, hw, h.symm⟩
        · simp [hw] at h
  · rintro ⟨it, hit, t, hd, hw, rfl⟩
    exact ⟨it, hit, by simp [hd, hw]⟩

lemma mem_keptArticles_watermark_lt {env : Article → FetchOutcome} {wm : Int}
    {items : List FeedItem} {a : Article}
    (h : a ∈ keptArticles env wm items) : wm < a.published := by
  rcases mem_keptArticles.mp h with ⟨it, _, t, _, hw, rfl⟩
  rwa [enrichArticleItem_published, toArticle]

lemma collectFeed_watermark_cases (env : Article → FetchOutcome) (wm : Int)
    (items : List FeedItem) :
    (collectFeed env wm items).2 = wm ∨ wm < (collectFeed env wm items).2 := by
  unfold collectFeed
  cases h : keptArticles env wm items with
  | nil => exact Or.inl rfl
  | cons a l =>
      refine Or.inr ?_
      exact mem_keptArticles_watermark_lt (h ▸ List.mem_cons_self a l)

lemma pollWatermark_le (env : Article → FetchOutcome) :
    ∀ (polls : List (List FeedItem)) (wm : Int),
      wm ≤ pollWatermark env wm polls
  | [], wm => le_refl wm
  | p :: ps, wm => by
      have h1 : wm ≤ (collectFeed env wm p).2 := by
        rcases collectFeed_watermark_cases env wm p with h | h
        · exact h.ge
        · exact h.le
      exact h1.trans (pollWatermark_le env ps (collectFeed env wm p).2)

lemma collectFeed_fst (env : Article → FetchOutcome) (wm : Int)
    (items : List FeedItem) :
    (collectFeed env wm items).1 = keptArticles env wm items := by
  unfold collectFeed
  cases keptArticles env wm items <;> rfl

lemma enrichCleanup_content (a : Article) :
    (enrichCleanup a).content = a.content := by
  unfold enrichCleanup
  dsimp only
  split <;> split <;> rfl

/-! ## C1: watermark update rule and monotonicity -/

/-- C1, counterexample: with watermark 0 and a feed document listing its
two entries in ascending date order (timestamps 1 then 2), both entries
are kept, yet the new watermark is 1 (the Published value of the first
kept entry), not the maximum kept timestamp 2. -/
theorem collectFeed_watermark_not_max :
    (collectFeed envNone 0 [simpleItem "a" 1, simpleItem "b" 2]).2 = 1 ∧
    ((collectFeed envNone 0 [simpleItem "a" 1, simpleItem "b" 2]).1.map
      Article.published) = [1, 2] ∧
    (1 : Int) ≠ 2 :=
  ⟨rfl, rfl, by decide⟩

/-- C1, amended: if at least one entry was kept, the watermark is set to
the Published timestamp of the FIRST kept entry in feed-document order
(the code assumes reverse-chronological feeds, so this is the maximum
only under that assumption), and this value is strictly greater than the
previous watermark; if no entry was kept the watermark is unchanged;
consequently over any sequence of polls the watermark is non-decreasing. -/
theorem collectFeed_watermark_first_kept (env : Article → FetchOutcome)
    (wm : Int) (items : List FeedItem) :
    (∀ a l, keptArticles env wm items = a :: l →
      (collectFeed env wm items).2 = a.published ∧
        wm < (collectFeed env wm items).2) ∧
    (keptArticles env wm items = [] → (collectFeed env wm items).2 = wm) ∧
    (∀ polls : List (List FeedItem), wm ≤ pollWatermark env wm polls) := by
  refine ⟨?_, ?_, fun polls => pollWatermark_le env polls wm⟩
  · intro a l h
    have hmem : a ∈ keptArticles env wm items := h ▸ List.mem_cons_self a l
    have hlt := mem_keptArticles_watermark_lt hmem
    unfold collectFeed
    rw [h]
    exact ⟨rfl, hlt⟩
  · intro h
    unfold collectFeed
    rw [h]

/-- C1, witness for the amended theorem at a concrete poll. -/
theorem collectFeed_watermark_first_kept_witness :
    (collectFeed envNone 0 [simpleItem "a" 1, simpleItem "b" 2]).2 =
      (toArticle (simpleItem "a" 1) 1).published ∧
    (0 : Int) < (collectFeed envNone 0 [simpleItem "a" 1, simpleItem "b" 2]).2 ∧
    (0 : Int) ≤ pollWatermark envNone 0 [[simpleItem "a" 1, simpleItem "b" 2]] := by
  have h := collectFeed_watermark_first_kept envNone 0
    [simpleItem "a" 1, simpleItem "b" 2]
  have hk := h.1 (toArticle (simpleItem "a" 1) 1)
    [toArticle (simpleItem "b" 2) 2] rfl
  exact ⟨hk.1, hk.2, h.2.2 [[simpleItem "a" 1, simpleItem "b" 2]]⟩

/-! ## C2: no duplicate delivery across consecutive polls -/

/-- C2, counterexample: with watermark 0 and an unchanged feed document
listing entries with timestamps 1 then 2 (ascending order), the article
with timestamp 2 is accepted in poll k and accepted AGAIN in poll k+1,
because the watermark advanced only to 1, the first kept timestamp. -/
theorem duplicate_delivery_counterexample :
    toArticle (simpleItem "b" 2) 2 ∈
      (collectFeed envNone 0 [simpleItem "a" 1, simpleItem "b" 2]).1 ∧
    toArticle (simpleItem "b" 2) 2 ∈
      (collectFeed envNone
        ((collectFeed envNone 0 [simpleItem "a" 1, simpleItem "b" 2]).2)
        [simpleItem "a" 1, simpleItem "b" 2]).1 := by
  decide

/-- C2, amended: if the feed document lists its derivable timestamps in
reverse-chronological (non-increasing) order, as the code assumes, then
no article accepted in poll k with an unchanged feed document is
accepted again in poll k+1: every accepted article has a timestamp at or
below the new watermark, so the watermark filter excludes it. -/
theorem no_duplicate_delivery_sorted (env : Article → FetchOutcome)
    (wm : Int) (items : List FeedItem)
    (hsorted : (items.filterMap derivePublished).Sorted (· ≥ ·)) :
    ∀ a ∈ (collectFeed env wm items).1,
      a ∉ (collectFeed env ((collectFeed env wm items).2) items).1 := by
  intro a ha hb
  rw [collectFeed_fst] at ha hb
  cases hk : keptArticles env wm items with
  | nil => rw [hk] at ha; exact absurd ha (List.not_mem_nil a)
  | cons a0 l =>
      have hwm : (collectFeed env wm items).2 = a0.published := by
        unfold collectFeed; rw [hk]
      rw [hwm] at hb
      have hgt : a0.published < a.published :=
        mem_keptArticles_watermark_lt hb
      have hmap := keptArticles_map_published env wm items
      rw [hk] at hmap
      have hsf : ((items.filterMap derivePublished).filter
          (fun t => decide (wm < t))).Sorted (· ≥ ·) :=
        List.Pairwise.filter _ hsorted
      rw [← hmap] at hsf
      have hale : a.published ≤ a0.published := by
        have hmem : a.published ∈ (a0 :: l).map Article.published :=
          List.mem_map_of_mem Article.published (hk ▸ ha)
        rcases List.mem_cons.mp hmem with heq | hmem
        · exact heq.le
        · exact List.rel_of_sorted_cons hsf _ hmem
      exact absurd hgt (not_lt.mpr hale)

/-- C2, witness for the amended theorem: a reverse-chronological feed
with timestamps 2 then 1, polled twice from watermark 0; the article
accepted first is not accepted again. -/
theorem no_duplicate_delivery_sorted_witness :
    toArticle (simpleItem "b" 2) 2 ∉
      (collectFeed envNone
        ((collectFeed envNone 0 [simpleItem "b" 2, simpleItem "a" 1]).2)
        [simpleItem "b" 2, simpleItem "a" 1]).1 :=
  no_duplicate_delivery_sorted envNone 0 [simpleItem "b" 2, simpleItem "a" 1]
    (by decide) (toArticle (simpleItem "b" 2) 2) (by decide)

/-! ## C4: keep exactly the entries with a derivable timestamp after
the watermark -/

/-- A feed entry whose date the parser could not produce and whose raw
Published string fails the fallback format. -/
def noDateItem : FeedItem :=
  { title := "nodate", description := "", link := "nodate", content := "",
    categories := [], publishedParsed := none, publishedFallback := none }

/-- C4: an entry is kept exactly when a publish timestamp can be derived
(parser value, else fallback-format parse) and that timestamp is
strictly after the watermark; an entry with no derivable timestamp is
discarded and its presence changes neither the kept articles nor the
watermark of the poll. -/
theorem kept_iff_derivable_after_watermark (env : Article → FetchOutcome)
    (wm : Int) (items : List FeedItem) :
    (∀ it ∈ items, ∀ t, derivePublished it = some t → wm < t →
      (enrichArticleItem (toArticle it t) (env (toArticle it t))).1 ∈
        keptArticles env wm items) ∧
    (∀ a ∈ keptArticles env wm items,
      ∃ it ∈ items, ∃ t, derivePublished it = some t ∧ wm < t ∧
        a = (enrichArticleItem (toArticle it t) (env (toArticle it t))).1) ∧
    (∀ (pre post : List FeedItem) (it : FeedItem), derivePublished it = none →
      collectFeed env wm (pre ++ it :: post) = collectFeed env wm (pre ++ post)) := by
  refine ⟨?_, ?_, ?_⟩
  · intro it hit t hd hw
    exact mem_keptArticles.mpr ⟨it, hit, t, hd, hw, rfl⟩
  · intro a ha
    exact mem_keptArticles.mp ha
  · intro pre post it hnone
    have hkept : keptArticles env wm (pre ++ it :: post) =
        keptArticles env wm (pre ++ post) := by
      simp [keptArticles, List.filterMap_append, List.filterMap_cons, hnone]
    unfold collectFeed
    rw [hkept]

/-- C4, witness: a dated entry after the watermark is kept, and dropping
an undatable entry leaves the poll result and watermark unchanged. -/
theorem kept_iff_derivable_after_watermark_witness :
    (enrichArticleItem (toArticle (simpleItem "a" 1) 1)
        (envNone (toArticle (simpleItem "a" 1) 1))).1 ∈
      keptArticles envNone 0 [simpleItem "a" 1] ∧
    collectFeed envNone 0 ([simpleItem "a" 1] ++ noDateItem :: []) =
      collectFeed envNone 0 ([simpleItem "a" 1] ++ []) := by
  have h := kept_iff_derivable_after_watermark envNone 0 [simpleItem "a" 1]
  exact ⟨h.1 (simpleItem "a" 1) (by decide) 1 rfl (by decide),
    h.2.2 [simpleItem "a" 1] [] noDateItem rfl⟩

/-! ## C9: enrichment failure is non-fatal -/

/-- C9: when the re-fetch or extraction fails (a non-nil error from
enrichArticleItem, or the fetchURL failure which the code swallows with
a nil error), the article is exactly the cleaned input, with its Content
untouched by the cleanup; and every kept entry is appended to the poll
result irrespective of the enrichment outcome for its link. -/
theorem enrichment_failure_nonfatal (env : Article → FetchOutcome)
    (wm : Int) (items : List FeedItem) :
    (∀ (a : Article) (fo : FetchOutcome),
      (enrichArticleItem a fo).2 = true ∨ fo = FetchOutcome.fetchFailed →
        (enrichArticleItem a fo).1 = enrichCleanup a ∧
        (enrichArticleItem a fo).1.content = a.content) ∧
    (∀ it ∈ items, ∀ t, derivePublished it = some t → wm < t →
      (enrichArticleItem (toArticle it t) (env (toArticle it t))).1 ∈
        (collectFeed env wm items).1) := by
  constructor
  · intro a fo hfail
    have hres : (enrichArticleItem a fo).1 = enrichCleanup a := by
      cases fo with
      | fetchFailed => rfl
      | urlParseFailed => rfl
      | extractFailed => rfl
      | extracted c tc =>
          rcases hfail with hfail | hfail
          · by_cases hc : c.length = 0
            · simp [enrichArticleItem, hc]
            · simp [enrichArticleItem, hc] at hfail
          · exact absurd hfail (by simp)
    exact ⟨hres, by rw [hres, enrichCleanup_content]⟩
  · intro it hit t hd hw
    rw [collectFeed_fst]
    exact mem_keptArticles.mpr ⟨it, hit, t, hd, hw, rfl⟩

/-- C9, witness: an article whose extraction fails is still delivered in
the poll result with its original content. -/
theorem enrichment_failure_nonfatal_witness :
    ((enrichArticleItem (toArticle (simpleItem "a" 1) 1)
        FetchOutcome.extractFailed).1 =
      enrichCleanup (toArticle (simpleItem "a" 1) 1) ∧
    (enrichArticleItem (toArticle (simpleItem "a" 1) 1)
        FetchOutcome.extractFailed).1.content =
      (toArticle (simpleItem "a" 1) 1).content) ∧
    (enrichArticleItem (toArticle (simpleItem "b" 2) 2)
        (envNone (toArticle (simpleItem "b" 2) 2))).1 ∈
      (collectFeed envNone 0 [simpleItem "b" 2]).1 := by
  have h := enrichment_failure_nonfatal envNone 0 [simpleItem "b" 2]
  exact ⟨h.1 (toArticle (simpleItem "a" 1) 1) FetchOutcome.extractFailed
      (Or.inl rfl),
    h.2 (simpleItem "b" 2) (by decide) 2 rfl (by decide)⟩

/-! ## C3: no identical-content or short-content discard heuristic -/

/-- An article whose Content field equals its Description field. -/
def dupArticle : Article :=
  { title := "t", description := "x", link := "l", content := "x",
    categories := [], published := 0 }

/-- An article with implausibly short content. -/
def shortArticle : Article :=
  { title := "t", description := "a longer description", link := "l",
    content := "ab", categories := [], published := 0 }

/-- C3, counterexample: the cleanup phase of the enricher never clears
Content. For an article whose Content equals its Description, the
Content still holds that value at the point the re-fetch starts, and if
the fetch fails it survives to the output; the same holds for a
two-character Content, so no character-count floor exists either. -/
theorem no_content_discard_counterexample :
    (enrichCleanup dupArticle).content = "x" ∧
    (enrichArticleItem dupArticle FetchOutcome.fetchFailed).1.content = "x" ∧
    (enrichCleanup shortArticle).content = "ab" ∧
    (enrichArticleItem shortArticle FetchOutcome.fetchFailed).1.content = "ab" := by
  refine ⟨rfl, rfl, rfl, rfl⟩

/-- C3, amended: the enricher has no identical-content and no
minimum-length heuristic. Cleanup never changes Content (it only copies
Content into an empty Description and clears a Description longer than
1000 characters); the re-fetch is attempted unconditionally, and the
output Content is either the input Content unchanged or, exactly when
extraction succeeds with non-empty html, the extracted text. -/
theorem enricher_content_never_discarded (a : Article) (fo : FetchOutcome) :
    (enrichCleanup a).content = a.content ∧
    ((enrichArticleItem a fo).1.content = a.content ∨
      ∃ c tc, fo = FetchOutcome.extracted c tc ∧ c.length ≠ 0 ∧
        (enrichArticleItem a fo).1.content = tc) := by
  refine ⟨enrichCleanup_content a, ?_⟩
  cases fo with
  | fetchFailed => exact Or.inl (enrichCleanup_content a)
  | urlParseFailed => exact Or.inl (enrichCleanup_content a)
  | extractFailed => exact Or.inl (enrichCleanup_content a)
  | extracted c tc =>
      by_cases hc : c.length = 0
      · exact Or.inl (by simp [enrichArticleItem, hc, enrichCleanup_content])
      · exact Or.inr ⟨c, tc, rfl, hc, by simp [enrichArticleItem, hc]⟩

/-! ## Cosine similarity lemmas -/

lemma dotList_self_nonneg : ∀ a : List Real, 0 ≤ dotList a a
  | [] => le_refl 0
  | x :: a => by
      have ih := dotList_self_nonneg a
      simp only [dotList, List.zipWith_cons_cons, List.sum_cons] at ih ⊢
      have hx : 0 ≤ x * x := mul_self_nonneg x
      linarith

lemma dotList_self_pos : ∀ a : List Real, (∃ x ∈ a, x ≠ 0) → 0 < dotList a a
  | [], h => by simp at h
  | x :: a, h => by
      have ha : 0 ≤ dotList a a := dotList_self_nonneg a
      have hx : 0 ≤ x * x := mul_self_nonneg x
      have hsum : dotList (x :: a) (x :: a) = x * x + dotList a a := by
        simp [dotList, List.zipWith_cons_cons]
      rcases h with ⟨y, hy, hyne⟩
      rcases List.mem_cons.mp hy with rfl | hmem
      · have hpos : 0 < y * y := mul_self_pos.mpr hyne
        rw [hsum]
        linarith
      · have hpos := dotList_self_pos a ⟨y, hmem, hyne⟩
        rw [hsum]
        linarith

lemma dotList_eq_sum : ∀ a b : List Real, a.length = b.length →
    dotList a b = ∑ i ∈ Finset.range a.length, a.getD i 0 * b.getD i 0
  | [], [], _ => by simp [dotList]
  | [], y :: b, h => by simp at h
  | x :: a, [], h => by simp at h
  | x :: a, y :: b, h => by
      have hlen : a.length = b.length := by simpa using h
      have ih := dotList_eq_sum a b hlen
      have hcons : dotList (x :: a) (y :: b) = x * y + dotList a b := by
        simp [dotList, List.zipWith_cons_cons]
      rw [hcons, ih, List.length_cons, Finset.sum_range_succ']
      simp only [List.getD_cons_succ, List.getD_cons_zero]
      ring

/-- Cauchy-Schwarz for the zipWith dot product of equal-length lists. -/
lemma dotList_sq_le (a b : List Real) (h : a.length = b.length) :
    dotList a b ^ 2 ≤ dotList a a * dotList b b := by
  rw [dotList_eq_sum a b h, dotList_eq_sum a a rfl, dotList_eq_sum b b rfl, ← h]
  have := Finset.sum_mul_sq_le_sq_mul_sq (Finset.range a.length)
    (fun i => a.getD i 0) (fun i => b.getD i 0)
  calc (∑ i ∈ Finset.range a.length, a.getD i 0 * b.getD i 0) ^ 2
      ≤ (∑ i ∈ Finset.range a.length, a.getD i 0 ^ 2) *
        ∑ i ∈ Finset.range a.length, b.getD i 0 ^ 2 := this
    _ = (∑ i ∈ Finset.range a.length, a.getD i 0 * a.getD i 0) *
        ∑ i ∈ Finset.range a.length, b.getD i 0 * b.getD i 0 := by
          simp [sq]

/-! ## C5: cosine similarity sentinel and bounds -/

/-- C5: on a length mismatch cosineSimilarity returns the sentinel -1;
on equal-length vectors it returns the dot product divided by the
product of the two L2 norms, and when both vectors are non-zero that
value lies in the interval from -1 to 1. Float32 arithmetic is modelled
with exact reals. -/
theorem cosineSimilarity_sentinel_and_bounds (a b : List Real) :
    (a.length ≠ b.length → cosineSimilarity a b = -1) ∧
    (a.length = b.length →
      cosineSimilarity a b =
        dotList a b / (Real.sqrt (dotList a a) * Real.sqrt (dotList b b)) ∧
      ((∃ x ∈ a, x ≠ 0) → (∃ y ∈ b, y ≠ 0) →
        -1 ≤ cosineSimilarity a b ∧ cosineSimilarity a b ≤ 1)) := by
  constructor
  · intro hne
    rw [cosineSimilarity, if_pos hne]
  · intro hlen
    have hform : cosineSimilarity a b =
        dotList a b / (Real.sqrt (dotList a a) * Real.sqrt (dotList b b)) := by
      rw [cosineSimilarity, if_neg (by simpa using hlen)]
    refine ⟨hform, fun hxa hyb => ?_⟩
    have hA : 0 < dotList a a := dotList_self_pos a hxa
    have hB : 0 < dotList b b := dotList_self_pos b hyb
    have hD : 0 < Real.sqrt (dotList a a) * Real.sqrt (dotList b b) :=
      mul_pos (Real.sqrt_pos.mpr hA) (Real.sqrt_pos.mpr hB)
    have habs : |dotList a b| ≤ Real.sqrt (dotList a a) * Real.sqrt (dotList b b) := by
      have h1 : |dotList a b| ≤ Real.sqrt (dotList a a * dotList b b) :=
        Real.abs_le_sqrt (dotList_sq_le a b hlen)
      rwa [Real.sqrt_mul hA.le] at h1
    have hq : |cosineSimilarity a b| ≤ 1 := by
      rw [hform, abs_div, abs_of_pos hD]
      exact div_le_one_of_le₀ habs hD.le
    exact abs_le.mp hq

/-- C5, witness: mismatched lengths give -1; the non-zero equal-length
pair of unit vectors [1, 0] and [0, 1] has similarity within bounds. -/
theorem cosineSimilarity_sentinel_and_bounds_witness :
    cosineSimilarity [(1 : Real)] [1, 0] = -1 ∧
    (-1 ≤ cosineSimilarity [(1 : Real), 0] [0, 1] ∧
      cosineSimilarity [(1 : Real), 0] [0, 1] ≤ 1) :=
  ⟨(cosineSimilarity_sentinel_and_bounds [(1 : Real)] [1, 0]).1 (by simp),
    ((cosineSimilarity_sentinel_and_bounds [(1 : Real), 0] [0, 1]).2 (by simp)).2
      ⟨1, by simp, one_ne_zero⟩ ⟨1, by simp, one_ne_zero⟩⟩

/-! ## C6: threshold filtering determinism -/

/-- A parsed LLM relevance entry scoring 9 for the Ransomware category. -/
def ransomwareNine : CategoryRelevance :=
  { category := "Ransomware", relevance := 9, explanation := "e" }

/-- C6: under both strategies the returned categories are exactly those
whose relevance is at or above the threshold: the LLM path filters the
parsed relevance list by relevance at or above threshold, and the
embeddings path keeps exactly the cached categories whose scaled
similarity is at or above threshold. The boundary case is kept: with
relevance 9, threshold 8 retains the entry and threshold 9.5 drops it. -/
theorem threshold_filtering_exact :
    (∀ (catMatching : List CategoryRelevance) (threshold : Real)
      (m : CategoryRelevance),
      m ∈ classifyWithLLM catMatching threshold ↔
        m ∈ catMatching ∧ threshold ≤ m.relevance) ∧
    (∀ (enc : List (String × List Real)) (av : List Real) (threshold : Real)
      (m : CategoryRelevance),
      m ∈ classifyWithEmbeddings enc av threshold ↔
        ∃ nv ∈ enc, threshold ≤ cosineSimilarity av nv.2 * 10 ∧
          m = { category := nv.1,
                relevance := cosineSimilarity av nv.2 * 10,
                explanation := "" }) ∧
    classifyWithLLM [ransomwareNine] 8 = [ransomwareNine] ∧
    classifyWithLLM [ransomwareNine] (19 / 2) = [] := by
  refine ⟨?_, ?_, ?_, ?_⟩
  · intro catMatching threshold m
    simp [classifyWithLLM, List.mem_filter]
  · intro enc av threshold m
    simp only [classifyWithEmbeddings, List.mem_filterMap]
    constructor
    · rintro ⟨nv, hnv, h⟩
      by_cases hth : threshold ≤ cosineSimilarity av nv.2 * 10
      · simp only [hth, if_true, Option.some.injEq] at h
        exact ⟨nv, hnv, hth, h.symm⟩
      · simp [hth] at h
    · rintro ⟨nv, hnv, hth, rfl⟩
      exact ⟨nv, hnv, by simp [hth]⟩
  · rw [classifyWithLLM, List.filter_cons, List.filter_nil]
    rw [if_pos (by norm_num [ransomwareNine])]
  · rw [classifyWithLLM, List.filter_cons, List.filter_nil]
    rw [if_neg (by norm_num [ransomwareNine])]

/-! ## C7: embeddings relevance is cosine times ten, no explanation -/

lemma cosineSimilarity_unit_pair :
    cosineSimilarity [(1 : Real), 0] [1, 0] = 1 := by
  have hd : dotList [(1 : Real), 0] [1, 0] = 1 := by
    norm_num [dotList]
  rw [cosineSimilarity, if_neg (by simp)]
  rw [hd, Real.sqrt_one]
  norm_num

/-- C7: every category returned by the embeddings strategy carries the
relevance cosine times 10 for its cached vector and an empty Explanation
string; for the identical vectors [1, 0] and [1, 0] the similarity is 1
and the relevance exactly 10. -/
theorem embeddings_relevance_cosine_times_ten :
    (∀ (enc : List (String × List Real)) (av : List Real) (threshold : Real)
      (m : CategoryRelevance), m ∈ classifyWithEmbeddings enc av threshold →
        m.explanation = "" ∧
        ∃ nv ∈ enc, m.relevance = cosineSimilarity av nv.2 * 10) ∧
    cosineSimilarity [(1 : Real), 0] [1, 0] = 1 ∧
    classifyWithEmbeddings [("c", [1, 0])] [1, 0] 8 =
      [{ category := "c", relevance := 10, explanation := "" }] := by
  refine ⟨?_, cosineSimilarity_unit_pair, ?_⟩
  · intro enc av threshold m hm
    simp only [classifyWithEmbeddings, List.mem_filterMap] at hm
    rcases hm with ⟨nv, hnv, h⟩
    by_cases hth : threshold ≤ cosineSimilarity av nv.2 * 10
    · simp only [hth, if_true, Option.some.injEq] at h
      rw [← h]
      exact ⟨rfl, nv, hnv, rfl⟩
    · simp [hth] at h
  · rw [classifyWithEmbeddings]
    simp only [List.filterMap_cons, List.filterMap_nil]
    rw [cosineSimilarity_unit_pair]
    norm_num

/-- C7, witness: the general part applied to the concrete single-category
cache with identical article and category vectors. -/
theorem embeddings_relevance_cosine_times_ten_witness :
    ({ category := "c", relevance := 10, explanation := "" } :
        CategoryRelevance).explanation = "" ∧
    ∃ nv ∈ [("c", [(1 : Real), 0])],
      ({ category := "c", relevance := 10, explanation := "" } :
        CategoryRelevance).relevance = cosineSimilarity [1, 0] nv.2 * 10 := by
  have h := embeddings_relevance_cosine_times_ten
  exact h.1 [("c", [1, 0])] [1, 0] 8
    { category := "c", relevance := 10, explanation := "" }
    (by rw [h.2.2]; exact List.mem_singleton.mpr rfl)

/-! ## Chunking lemmas -/

lemma chunkTextAux_succ (runes : List Char) (cs ov : Nat) (fuel : Nat)
    (start : Int) :
    chunkTextAux runes cs ov (fuel + 1) start =
      if start < (runes.length : Int) then
        match chunkTextAux runes cs ov fuel
            (start + ((cs : Int) - (ov : Int))) with
        | none => none
        | some rest =>
            some (((runes.drop start.toNat).take
              ((min (start + (cs : Int)) (runes.length : Int)) - start).toNat)
                :: rest)
      else some [] := rfl

lemma chunkTextAux_isSome (runes : List Char) (cs ov : Nat) (h : ov < cs) :
    ∀ (m : Nat) (start : Int), (runes.length : Int) - start ≤ m →
      (chunkTextAux runes cs ov (m + 1) start).isSome := by
  intro m
  induction m with
  | zero =>
      intro start hle
      rw [chunkTextAux_succ, if_neg (by omega)]
      rfl
  | succ k ih =>
      intro start hle
      rw [chunkTextAux_succ]
      by_cases hlt : start < (runes.length : Int)
      · rw [if_pos hlt]
        have hstep : (runes.length : Int) - (start + ((cs : Int) - (ov : Int))) ≤ k := by
          omega
        rcases Option.isSome_iff_exists.mp (ih _ hstep) with ⟨rest, hrest⟩
        rw [hrest]
        rfl
      · rw [if_neg hlt]
        rfl

lemma chunkTextAux_none (runes : List Char) (cs ov : Nat) (h : cs ≤ ov) :
    ∀ (fuel : Nat) (start : Int), start < (runes.length : Int) →
      chunkTextAux runes cs ov fuel start = none := by
  intro fuel
  induction fuel with
  | zero => intro start _; rfl
  | succ k ih =>
      intro start hlt
      rw [chunkTextAux_succ, if_pos hlt,
        ih (start + ((cs : Int) - (ov : Int))) (by omega)]

lemma take_clamp {α : Type} (l : List α) (m : Nat) :
    l.take (min m l.length) = l.take m := by
  rw [List.take_eq_take]
  omega

lemma chunkTextAux_spec (runes : List Char) (cs ov : Nat) (h : ov < cs) :
    ∀ (m : Nat) (s : Nat) (L : List (List Char)),
      chunkTextAux runes cs ov m (s : Int) = some L →
      ∃ k, L = (List.range k).map
        fun i => (runes.drop (s + i * (cs - ov))).take cs := by
  intro m
  induction m with
  | zero => intro s L hL; exact absurd hL (by rw [chunkTextAux]; simp)
  | succ fuel ih =>
      intro s L hL
      rw [chunkTextAux_succ] at hL
      by_cases hlt : (s : Int) < (runes.length : Int)
      · rw [if_pos hlt] at hL
        have hcast : (s : Int) + ((cs : Int) - (ov : Int)) =
            ((s + (cs - ov) : Nat) : Int) := by
          push_cast [Nat.cast_sub h.le]
          ring
        rw [hcast] at hL
        cases hrec : chunkTextAux runes cs ov fuel ((s + (cs - ov) : Nat) : Int) with
        | none => rw [hrec] at hL; exact absurd hL (by simp)
        | some rest =>
            rw [hrec] at hL
            simp only [Option.some.injEq] at hL
            rcases ih (s + (cs - ov)) rest hrec with ⟨k, hk⟩
            refine ⟨k + 1, ?_⟩
            rw [← hL]
            have hchunk : (runes.drop (s : Int).toNat).take
                ((min ((s : Int) + (cs : Int)) (runes.length : Int)) -
                  (s : Int)).toNat =
                (runes.drop s).take cs := by
              have htn : (s : Int).toNat = s := Int.toNat_natCast s
              have hmin : ((min ((s : Int) + (cs : Int)) (runes.length : Int)) -
                  (s : Int)).toNat = min cs (runes.length - s) := by
                omega
              rw [htn, hmin]
              have hlen : (runes.drop s).length = runes.length - s := by
                simp
              rw [← hlen, take_clamp]
            rw [hchunk, hk]
            rw [List.range_succ_eq_map, List.map_cons, List.map_map]
            congr 1
            · rw [Nat.zero_mul, Nat.add_zero]
            · apply List.map_congr_left
              intro i _
              simp only [Function.comp_apply, Nat.succ_eq_add_one]
              have hexp : (i + 1) * (cs - ov) = i * (cs - ov) + (cs - ov) := by
                rw [Nat.add_mul, Nat.one_mul]
              have hoff : s + (cs - ov) + i * (cs - ov) = s + (i + 1) * (cs - ov) := by
                omega
              rw [hoff]
      · rw [if_neg hlt] at hL
        simp only [Option.some.injEq] at hL
        exact ⟨0, by rw [← hL]; rfl⟩

/-! ## Averaging lemmas -/

lemma zipWith_add_getD : ∀ (acc e : List Real), e.length = acc.length →
    ∀ i, (List.zipWith (fun x y => x + y) acc e).getD i 0 =
      acc.getD i 0 + e.getD i 0
  | [], [], _, i => by simp
  | [], y :: e, h, i => by simp at h
  | x :: acc, [], h, i => by simp at h
  | x :: acc, y :: e, h, i => by
      cases i with
      | zero => simp
      | succ j =>
          have hlen : e.length = acc.length := by simpa using h
          simpa using zipWith_add_getD acc e hlen j

lemma foldl_zipWith_length : ∀ (es : List (List Real)) (acc : List Real),
    (∀ e ∈ es, e.length = acc.length) →
      (es.foldl (fun a e => List.zipWith (fun x y => x + y) a e) acc).length =
        acc.length
  | [], acc, _ => rfl
  | e :: es, acc, h => by
      have hlen : (List.zipWith (fun x y => x + y) acc e).length = acc.length := by
        rw [List.length_zipWith, h e (List.mem_cons_self e es), min_self]
      rw [List.foldl_cons]
      rw [foldl_zipWith_length es _ (fun e' he' => by
        rw [hlen]; exact h e' (List.mem_cons_of_mem e he'))]
      exact hlen

lemma foldl_zipWith_getD : ∀ (es : List (List Real)) (acc : List Real),
    (∀ e ∈ es, e.length = acc.length) → ∀ i,
      (es.foldl (fun a e => List.zipWith (fun x y => x + y) a e) acc).getD i 0 =
        acc.getD i 0 + (es.map fun e => e.getD i 0).sum
  | [], acc, _, i => by simp
  | e :: es, acc, h, i => by
      have hlen : (List.zipWith (fun x y => x + y) acc e).length = acc.length := by
        rw [List.length_zipWith, h e (List.mem_cons_self e es), min_self]
      rw [List.foldl_cons]
      rw [foldl_zipWith_getD es _ (fun e' he' => by
        rw [hlen]; exact h e' (List.mem_cons_of_mem e he')) i]
      rw [zipWith_add_getD acc e (h e (List.mem_cons_self e es)) i]
      rw [List.map_cons, List.sum_cons]
      ring

lemma getD_replicate_zero (d i : Nat) :
    (List.replicate d (0 : Real)).getD i 0 = 0 := by
  by_cases hd : i < d
  · rw [List.getD_eq_getElem _ _ (by simpa using hd)]
    exact List.getElem_replicate ..
  · exact List.getD_eq_default _ _ (by simpa using Nat.le_of_not_lt hd)

lemma getD_map_div (l : List Real) (c : Real) (i : Nat) :
    (l.map fun x => x / c).getD i 0 = l.getD i 0 / c := by
  by_cases hi : i < l.length
  · rw [List.getD_eq_getElem _ _ (by simpa using hi),
      List.getD_eq_getElem _ _ hi, List.getElem_map]
  · rw [List.getD_eq_default _ _ (by simpa using Nat.le_of_not_lt hi),
      List.getD_eq_default _ _ (Nat.le_of_not_lt hi), zero_div]

/-- Every coordinate of a successful averageEmbeddings result is the sum
of that coordinate over the input embeddings divided by their number,
and the result has the common dimension of the inputs. -/
lemma averageEmbeddings_spec (es : List (List Real)) (avg : List Real)
    (h : averageEmbeddings es = some avg) :
    avg.length = (es.headD []).length ∧
    ∀ i, avg.getD i 0 = (es.map fun e => e.getD i 0).sum / (es.length : Real) := by
  cases es with
  | nil => exact absurd h (by rw [averageEmbeddings]; simp)
  | cons e0 rest =>
      rw [averageEmbeddings] at h
      by_cases hall : (e0 :: rest).all (fun e => e.length = e0.length)
      · simp only [hall, if_true, Option.some.injEq] at h
        have hall' : ∀ e ∈ e0 :: rest, e.length = e0.length := by
          intro e he
          have := List.all_eq_true.mp hall e he
          exact of_decide_eq_true this
        have hlens : ∀ e ∈ e0 :: rest,
            e.length = (List.replicate e0.length (0 : Real)).length := by
          intro e he
          rw [List.length_replicate]
          exact hall' e he
        constructor
        · rw [← h, List.length_map,
            foldl_zipWith_length (e0 :: rest) _ hlens,
            List.length_replicate, List.headD_cons]
        · intro i
          rw [← h, getD_map_div,
            foldl_zipWith_getD (e0 :: rest) _ hlens i,
            getD_replicate_zero, zero_add]
      · rw [if_neg hall] at h
        exact absurd h (by simp)

lemma zipWith_add_replicate_zero : ∀ v : List Real,
    List.zipWith (fun x y => x + y) (List.replicate v.length (0 : Real)) v = v
  | [] => rfl
  | x :: v => by
      simp only [List.length_cons, List.replicate_succ, List.zipWith_cons_cons,
        zero_add, zipWith_add_replicate_zero v]

/-- Averaging a single embedding returns it unchanged. -/
lemma averageEmbeddings_single (v : List Real) :
    averageEmbeddings [v] = some v := by
  rw [averageEmbeddings]
  rw [if_pos (by simp)]
  simp only [List.foldl_cons, List.foldl_nil, zipWith_add_replicate_zero,
    List.length_cons, List.length_nil, Nat.zero_add, Nat.cast_one,
    Option.some.injEq]
  simp [div_one]

/-! ## C8: chunk windows, stride, and chunk averaging -/

/-- C8: for a positive stride (overlap below chunk size, as deployed),
chunkText produces exactly the windows starting at offsets i times
(chunkSize - overlap), each window a take of at most chunkSize
characters; a successful averageEmbeddings is the element-wise
arithmetic mean of the per-chunk vectors, and averaging over a single
chunk returns that vector identically. -/
theorem chunking_stride_and_average (cs ov : Nat) (h : ov < cs)
    (text : List Char) :
    (∃ k, chunkText text cs ov =
      some ((List.range k).map fun i => (text.drop (i * (cs - ov))).take cs)) ∧
    (∀ L, chunkText text cs ov = some L → ∀ c ∈ L, c.length ≤ cs) ∧
    (∀ (es : List (List Real)) (avg : List Real),
      averageEmbeddings es = some avg →
        ∀ i, avg.getD i 0 =
          (es.map fun e => e.getD i 0).sum / (es.length : Real)) ∧
    (∀ v : List Real, averageEmbeddings [v] = some v) := by
  have hsome : (chunkTextAux text cs ov (text.length + 1) 0).isSome :=
    chunkTextAux_isSome text cs ov h text.length 0 (by omega)
  rcases Option.isSome_iff_exists.mp hsome with ⟨L0, hL0⟩
  have hL0' : chunkTextAux text cs ov (text.length + 1) ((0 : Nat) : Int) =
      some L0 := by
    simpa using hL0
  rcases chunkTextAux_spec text cs ov h (text.length + 1) 0 L0 hL0' with ⟨k, hk⟩
  have hform : chunkText text cs ov =
      some ((List.range k).map fun i => (text.drop (i * (cs - ov))).take cs) := by
    rw [chunkText, hL0, hk]
    simp [Nat.zero_add]
  refine ⟨⟨k, hform⟩, ?_, ?_, averageEmbeddings_single⟩
  · intro L hL c hc
    rw [hform, Option.some.injEq] at hL
    rw [← hL] at hc
    rcases List.mem_map.mp hc with ⟨i, _, hci⟩
    rw [← hci]
    exact List.length_take_le ..
  · intro es avg havg
    exact (averageEmbeddings_spec es avg havg).2

/-- C8, witness: the averaging conjunct applied to a single concrete
chunk embedding, with the deployed chunking constants discharging the
stride hypothesis. -/
theorem chunking_stride_and_average_witness :
    averageEmbeddings [[(1 : Real), 0]] = some [(1 : Real), 0] :=
  (chunking_stride_and_average 1000 200 (by decide) []).2.2.2 [(1 : Real), 0]

/-! ## C10: chunkText termination dichotomy -/

/-- C10: when overlap is below chunkSize (as with the deployed constants
1000 and 200) every run of the chunkText loop terminates, because each
iteration advances start by the positive stride; when chunkSize is at
most overlap the start index never increases, and from any start inside
the text the loop never finishes within any iteration budget. -/
theorem chunkText_terminates_iff_positive_stride (cs ov : Nat)
    (runes : List Char) :
    (ov < cs → ∀ start : Int, ∃ fuel,
      (chunkTextAux runes cs ov fuel start).isSome) ∧
    (cs ≤ ov →
      (∀ start : Int, start + ((cs : Int) - (ov : Int)) ≤ start) ∧
      ∀ (fuel : Nat) (start : Int), start < (runes.length : Int) →
        chunkTextAux runes cs ov fuel start = none) ∧
    embeddingsOverlap < embeddingsChunkSize := by
  refine ⟨?_, ?_, by decide⟩
  · intro h start
    refine ⟨((runes.length : Int) - start).toNat + 1, ?_⟩
    exact chunkTextAux_isSome runes cs ov h _ start (Int.self_le_toNat _)
  · intro h
    exact ⟨fun start => by omega, chunkTextAux_none runes cs ov h⟩

/-- C10, witness: with the deployed constants the loop finishes on a
two-character text; with chunkSize equal to overlap it makes no progress
and exhausts any budget. -/
theorem chunkText_terminates_iff_positive_stride_witness :
    (∃ fuel, (chunkTextAux "ab".toList 1000 200 fuel 0).isSome) ∧
    chunkTextAux "ab".toList 200 200 5 0 = none := by
  refine ⟨(chunkText_terminates_iff_positive_stride 1000 200 "ab".toList).1
    (by decide) 0, ?_⟩
  exact ((chunkText_terminates_iff_positive_stride 200 200 "ab".toList).2.1
    (by decide)).2 5 0 (by decide)

end Secfeed
